import Mathlib

/-!
Shallow embedding of `mshadow/tensor_random.h` (the `Random<cpu>` and
`Random<gpu>` engines) and proofs about it.

Modelling conventions:
* `real_t` is modelled as `ℚ`; the transcendental functions `std::sqrt` and
  `std::log` appearing after the Box-Muller rejection loop are abstracted as
  function parameters `F` (sqrt) and `L` (log).
* The C library generator is modelled by a stream `g : ℕ → ℕ` of successive
  `rand()` results together with a cursor `k : ℕ`; `RAND_MAX` is a parameter
  `rm : ℕ`.  A stream is valid when every draw is `≤ rm`.
* Device memory is a flat address space `Mem := ℕ → ℚ`; a flattened 2-D
  tensor view records its base offset, inner extent (`shape[0]`), outer
  extent (`shape[1]`) and leading-axis stride.
* The `do … while` rejection loop of `SampleNormal2D` is given explicit fuel
  and returns `none` when the fuel runs out.
* All claims concern the non-vectorized CPU path (`MSHADOW_USE_MKL` off) and,
  for `GetTemp`, also the GPU variant.
-/

namespace Mshadow

/-- Flat device memory: rational value at every address. -/
def Mem : Type := ℕ → ℚ

/-- Write value `v` at address `a`. -/
def writeAddr (m : Mem) (a : ℕ) (v : ℚ) : Mem :=
  fun x => if x = a then v else m x

/-- A flattened 2-D tensor view: base offset, inner extent `shape[0]`,
outer extent `shape[1]`, leading-axis stride. -/
structure Tensor2 where
  dptr : ℕ
  shape0 : ℕ
  shape1 : ℕ
  stride : ℕ
deriving DecidableEq, Repr

/-- An N-D tensor view as `GetTemp` returns it: base offset, the list of
extents (`extents.headD 0` is `shape[0]`), and the leading-axis stride. -/
structure TView where
  dptr : ℕ
  extents : List ℕ
  stride : ℕ
deriving DecidableEq, Repr

/-- Embeds `Random<cpu>::RandNext`: `rand()/(RAND_MAX+1)`, value in `[0,1)`.
Returns the value and the advanced cursor. -/
def randNext (rm : ℕ) (g : ℕ → ℕ) (k : ℕ) : ℚ × ℕ :=
  ((g k : ℚ) / ((rm : ℚ) + 1), k + 1)

/-- Embeds `Random<cpu>::RandNext2`: `(rand()+1)/(RAND_MAX+2)`, value in
`(0,1)`.  Returns the value and the advanced cursor. -/
def randNext2 (rm : ℕ) (g : ℕ → ℕ) (k : ℕ) : ℚ × ℕ :=
  (((g k : ℚ) + 1) / ((rm : ℚ) + 2), k + 1)

/-- The rejection loop of `Random<cpu>::SampleNormal2D`: draw
`x = 2*RandNext2()-1`, `y = 2*RandNext2()-1`, `s = x*x+y*y`, retry while
`s >= 1 || s == 0`.  Returns the accepted `(x, y, s)` and the cursor, or
`none` when the fuel runs out. -/
def normal2DAccept (rm : ℕ) (g : ℕ → ℕ) : ℕ → ℕ → Option (ℚ × ℚ × ℚ × ℕ)
  | 0, _ => none
  | fuel + 1, k =>
    let x := 2 * (randNext2 rm g k).1 - 1
    let y := 2 * (randNext2 rm g (k + 1)).1 - 1
    let s := x * x + y * y
    if 1 ≤ s ∨ s = 0 then normal2DAccept rm g fuel (k + 2)
    else some (x, y, s, k + 2)

/-- Embeds `Random<cpu>::SampleNormal2D`: after the rejection loop accepts
`(x, y, s)`, computes `t = sqrt(-2*log(s)/s)` and yields `(x*t, y*t)`.
`F` models `std::sqrt` and `L` models `std::log`. -/
def SampleNormal2D (F L : ℚ → ℚ) (rm : ℕ) (g : ℕ → ℕ) (fuel k : ℕ) :
    Option (ℚ × ℚ × ℕ) :=
  match normal2DAccept rm g fuel k with
  | none => none
  | some (x, y, s, k2) =>
    let t := F (-2 * L s / s)
    some (x * t, y * t, k2)

/-- Modelled from the spec: rejection-sampling Box-Muller exactly as §4.2
words it — draw `u, v` uniformly in `(0,1)` via `(rand()+1)/(RAND_MAX+2)`,
map to `x = 2u-1`, `y = 2v-1`, compute `s = x²+y²`, retry while
`s ≥ 1 or s = 0`, and on acceptance return `(x·t, y·t)` with
`t = sqrt(-2·ln(s)/s)`. -/
def boxMullerSpec (F L : ℚ → ℚ) (rm : ℕ) (g : ℕ → ℕ) : ℕ → ℕ → Option (ℚ × ℚ × ℕ)
  | 0, _ => none
  | fuel + 1, k =>
    let u := ((g k : ℚ) + 1) / ((rm : ℚ) + 2)
    let v := ((g (k + 1) : ℚ) + 1) / ((rm : ℚ) + 2)
    let x := 2 * u - 1
    let y := 2 * v - 1
    let s := x * x + y * y
    if 1 ≤ s ∨ s = 0 then boxMullerSpec F L rm g fuel (k + 2)
    else
      let t := F (-2 * L s / s)
      some (x * t, y * t, k + 2)

/-- Embeds the stride computation shared by both `GetTemp` variants:
`((shape[0] + 3) >> 2) << 2`. -/
def pad4 (s0 : ℕ) : ℕ :=
  ((s0 + 3) >>> 2) <<< 2

/-- Modelled from the spec: the total padded element count of a requested
shape (`Shape::MSize` of `tensor.h`, which is not part of this core) — the
padded leading-axis stride times the product of the remaining extents. -/
def msizeOf (sh : List ℕ) : ℕ :=
  pad4 (sh.headD 0) * (sh.tail.foldl (· * ·) 1)

/-- Embeds `Random<cpu>::GetTemp`: sets `stride = ((shape[0]+3)>>2)<<2`,
asserts `buffer_.shape[0] > shape.MSize()` (fatal: `none`), and returns the
view at the scratch buffer's base. -/
def cpuGetTemp (cap bufBase : ℕ) (sh : List ℕ) : Option TView :=
  let stride := pad4 (sh.headD 0)
  if cap > stride * (sh.tail.foldl (· * ·) 1) then some ⟨bufBase, sh, stride⟩
  else none

/-- Embeds `Random<gpu>::GetTemp`: sets `stride = ((shape[0]+3)>>2)<<2` and
returns the view at the scratch buffer's base.  The source performs no
capacity check on this path, so there is no failure case. -/
def gpuGetTemp (_cap bufBase : ℕ) (sh : List ℕ) : Option TView :=
  let stride := pad4 (sh.headD 0)
  some ⟨bufBase, sh, stride⟩

/-- Inner loop of the fallback `Random<cpu>::SampleUniform`:
`mat[i][j] = RandNext()*(b-a) + a` for `j = 0 .. n-1`, writing at consecutive
addresses from `base`.  Returns the memory, the cursor, and the list of values
written in order. -/
def uniformRow (rm : ℕ) (g : ℕ → ℕ) (a b : ℚ) :
    ℕ → ℕ → Mem → ℕ → Mem × ℕ × List ℚ
  | _, 0, m, k => (m, k, [])
  | base, n + 1, m, k =>
    let v := (randNext rm g k).1 * (b - a) + a
    let r := uniformRow rm g a b (base + 1) n (writeAddr m base v) (k + 1)
    (r.1, r.2.1, v :: r.2.2)

/-- Outer loop of the fallback `Random<cpu>::SampleUniform`: rows
`i = i0, i0+1, …` (`cnt` of them), row `i` starting at `dptr + i*stride`. -/
def uniformRows (rm : ℕ) (g : ℕ → ℕ) (a b : ℚ) (dptr stride shape0 : ℕ) :
    ℕ → ℕ → Mem → ℕ → Mem × ℕ × List ℚ
  | _, 0, m, k => (m, k, [])
  | i, cnt + 1, m, k =>
    let r := uniformRow rm g a b (dptr + i * stride) shape0 m k
    let r2 := uniformRows rm g a b dptr stride shape0 (i + 1) cnt r.1 r.2.1
    (r2.1, r2.2.1, r.2.2 ++ r2.2.2)

/-- Embeds the fallback (`stdlib`) branch of `Random<cpu>::SampleUniform` on
the flattened 2-D view `t`: for each outer index `i < shape[1]`, fill the
inner axis with `RandNext()*(b-a) + a`. -/
def SampleUniform (rm : ℕ) (g : ℕ → ℕ) (t : Tensor2) (a b : ℚ)
    (m : Mem) (k : ℕ) : Mem × ℕ × List ℚ :=
  uniformRows rm g a b t.dptr t.stride t.shape0 0 t.shape1 m k

/-- Inner loop of the fallback `Random<cpu>::SampleGaussian`: for
`j` running with `cnt` steps left, if `j` is even call `SampleNormal2D` into
`(g1, g2)` and write `mu + g1*sigma`, else write `mu + g2*sigma`.  Fails
(`none`) only when the Box-Muller fuel runs out. -/
def gaussianRow (F L : ℚ → ℚ) (rm : ℕ) (g : ℕ → ℕ) (mu sigma : ℚ)
    (fuel : ℕ) : ℕ → ℕ → ℕ → ℚ → ℚ → Mem → ℕ → Option (Mem × ℕ × List ℚ)
  | _, 0, _, _, _, m, k => some (m, k, [])
  | base, cnt + 1, j, g1, g2, m, k =>
    if j % 2 = 0 then
      match SampleNormal2D F L rm g fuel k with
      | none => none
      | some (x, y, k2) =>
        let v := mu + x * sigma
        match gaussianRow F L rm g mu sigma fuel (base + 1) cnt (j + 1) x y
            (writeAddr m base v) k2 with
        | none => none
        | some (m2, k3, ws) => some (m2, k3, v :: ws)
    else
      let v := mu + g2 * sigma
      match gaussianRow F L rm g mu sigma fuel (base + 1) cnt (j + 1) g1 g2
          (writeAddr m base v) k with
      | none => none
      | some (m2, k3, ws) => some (m2, k3, v :: ws)

/-- Outer loop of the fallback `Random<cpu>::SampleGaussian`: rows
`i = i0, i0+1, …` (`cnt` of them), each starting at `dptr + i*stride` with
`j` reset to `0` and `g1 = g2 = 0`. -/
def gaussianRows (F L : ℚ → ℚ) (rm : ℕ) (g : ℕ → ℕ) (mu sigma : ℚ)
    (fuel : ℕ) (dptr stride shape0 : ℕ) :
    ℕ → ℕ → Mem → ℕ → Option (Mem × ℕ × List ℚ)
  | _, 0, m, k => some (m, k, [])
  | i, cnt + 1, m, k =>
    match gaussianRow F L rm g mu sigma fuel (dptr + i * stride) shape0 0
        0 0 m k with
    | none => none
    | some (m2, k2, ws) =>
      match gaussianRows F L rm g mu sigma fuel dptr stride shape0 (i + 1)
          cnt m2 k2 with
      | none => none
      | some (m3, k3, ws2) => some (m3, k3, ws ++ ws2)

/-- Embeds the fallback (`stdlib`) branch of `Random<cpu>::SampleGaussian` on
the flattened 2-D view `t`. -/
def SampleGaussian (F L : ℚ → ℚ) (rm : ℕ) (g : ℕ → ℕ) (t : Tensor2)
    (mu sigma : ℚ) (fuel : ℕ) (m : Mem) (k : ℕ) :
    Option (Mem × ℕ × List ℚ) :=
  gaussianRows F L rm g mu sigma fuel t.dptr t.stride t.shape0 0 t.shape1 m k

/-- Modelled from the spec: one row of the fallback Gaussian fill as §4
words it — standard-normal pairs are consumed from the Box-Muller sampler,
one pair serving two consecutive inner-axis positions (the even index takes
the first of the pair, the following odd index the second), each scalar is
written as `mu + g*sigma`, and when the extent is odd the final generated
pair's second value is discarded. -/
def gaussianRowSpec (F L : ℚ → ℚ) (rm : ℕ) (g : ℕ → ℕ) (mu sigma : ℚ)
    (fuel : ℕ) : ℕ → ℕ → Mem → ℕ → Option (Mem × ℕ × List ℚ)
  | _, 0, m, k => some (m, k, [])
  | base, 1, m, k =>
    match SampleNormal2D F L rm g fuel k with
    | none => none
    | some (x, _, k2) =>
      let v := mu + x * sigma
      some (writeAddr m base v, k2, [v])
  | base, n + 2, m, k =>
    match SampleNormal2D F L rm g fuel k with
    | none => none
    | some (x, y, k2) =>
      let v1 := mu + x * sigma
      let v2 := mu + y * sigma
      match gaussianRowSpec F L rm g mu sigma fuel (base + 2) n
          (writeAddr (writeAddr m base v1) (base + 1) v2) k2 with
      | none => none
      | some (m2, k3, ws) => some (m2, k3, v1 :: v2 :: ws)

/-- Modelled from the spec: the whole fallback Gaussian fill, row by row,
each row as in `gaussianRowSpec`. -/
def gaussianRowsSpec (F L : ℚ → ℚ) (rm : ℕ) (g : ℕ → ℕ) (mu sigma : ℚ)
    (fuel : ℕ) (dptr stride shape0 : ℕ) :
    ℕ → ℕ → Mem → ℕ → Option (Mem × ℕ × List ℚ)
  | _, 0, m, k => some (m, k, [])
  | i, cnt + 1, m, k =>
    match gaussianRowSpec F L rm g mu sigma fuel (dptr + i * stride) shape0
        m k with
    | none => none
    | some (m2, k2, ws) =>
      match gaussianRowsSpec F L rm g mu sigma fuel dptr stride shape0
          (i + 1) cnt m2 k2 with
      | none => none
      | some (m3, k3, ws2) => some (m3, k3, ws ++ ws2)

/-- Modelled from the spec: `SampleGaussian` described pair-first as §4.5
words it. -/
def SampleGaussianSpec (F L : ℚ → ℚ) (rm : ℕ) (g : ℕ → ℕ) (t : Tensor2)
    (mu sigma : ℚ) (fuel : ℕ) (m : Mem) (k : ℕ) :
    Option (Mem × ℕ × List ℚ) :=
  gaussianRowsSpec F L rm g mu sigma fuel t.dptr t.stride t.shape0 0
    t.shape1 m k

/-- Modelled from the spec: flattening an N-D view to 2-D ("outer axis =
columns, inner axis = rows", §6/glossary): inner extent `shape[0]`, outer
extent the product of the remaining extents, same base and stride. -/
def flatTo2D (v : TView) : Tensor2 :=
  ⟨v.dptr, v.extents.headD 0, v.extents.tail.foldl (· * ·) 1, v.stride⟩

/-- State of one `Random<cpu>` engine: the platform `RAND_MAX`, the seeded
`rand()` stream with its cursor, the scratch buffer capacity
(`kRandBufferSize`), the buffer's base address, and the device memory. -/
structure CpuEngine where
  rm : ℕ
  g : ℕ → ℕ
  pos : ℕ
  cap : ℕ
  bufBase : ℕ
  mem : Mem

/-- Modelled from the spec: construction seeds the platform generator
deterministically from `seed` (`srand(seed)`; the generator itself lives in
the C library, outside this core), points the cursor at the first draw, and
allocates the scratch buffer (here: records its base address). -/
def mkCpuEngine (platform : ℤ → ℕ → ℕ) (rm : ℕ) (seed : ℤ)
    (cap bufBase : ℕ) (m : Mem) : CpuEngine :=
  ⟨rm, platform seed, 0, cap, bufBase, m⟩

/-- Embeds `Random<cpu>::uniform(shape)`: `GetTemp` (fatal assert modelled
as `none`), then `SampleUniform(temp, 0, 1)`, returning the updated engine,
the view the returned expression wraps, and the written values. -/
def uniformCall (e : CpuEngine) (sh : List ℕ) :
    Option (CpuEngine × TView × List ℚ) :=
  match cpuGetTemp e.cap e.bufBase sh with
  | none => none
  | some v =>
    let r := SampleUniform e.rm e.g (flatTo2D v) 0 1 e.mem e.pos
    some ({ e with mem := r.1, pos := r.2.1 }, v, r.2.2)

/-- Embeds `Random<cpu>::gaussian(shape)`: `GetTemp` (fatal assert modelled
as `none`), then `SampleGaussian(temp, 0, 1)`, returning the updated engine,
the view the returned expression wraps, and the written values. -/
def gaussianCall (F L : ℚ → ℚ) (e : CpuEngine) (sh : List ℕ) (fuel : ℕ) :
    Option (CpuEngine × TView × List ℚ) :=
  match cpuGetTemp e.cap e.bufBase sh with
  | none => none
  | some v =>
    match SampleGaussian F L e.rm e.g (flatTo2D v) 0 1 fuel e.mem e.pos with
    | none => none
    | some (m2, k2, ws) => some ({ e with mem := m2, pos := k2 }, v, ws)

/-- A sampling call on the CPU engine: a temporary-expression call with a
requested shape, or a direct fill of a caller-owned flattened destination. -/
inductive Call where
  | uniformTemp (sh : List ℕ)
  | gaussianTemp (sh : List ℕ) (fuel : ℕ)
  | sampleU (dst : Tensor2) (a b : ℚ)
  | sampleG (dst : Tensor2) (mu sigma : ℚ) (fuel : ℕ)

/-- Run one call: the updated engine and the values the call wrote, `none`
on a fatal assert (or Box-Muller fuel exhaustion). -/
def doCall (F L : ℚ → ℚ) (e : CpuEngine) : Call → Option (CpuEngine × List ℚ)
  | Call.uniformTemp sh =>
    match uniformCall e sh with
    | none => none
    | some (e2, _, ws) => some (e2, ws)
  | Call.gaussianTemp sh fuel =>
    match gaussianCall F L e sh fuel with
    | none => none
    | some (e2, _, ws) => some (e2, ws)
  | Call.sampleU dst a b =>
    let r := SampleUniform e.rm e.g dst a b e.mem e.pos
    some ({ e with mem := r.1, pos := r.2.1 }, r.2.2)
  | Call.sampleG dst mu sigma fuel =>
    match SampleGaussian F L e.rm e.g dst mu sigma fuel e.mem e.pos with
    | none => none
    | some (m2, k2, ws) => some ({ e with mem := m2, pos := k2 }, ws)

/-- Run a sequence of calls, collecting each call's output value list;
a fatal assert terminates the run. -/
def runCalls (F L : ℚ → ℚ) : CpuEngine → List Call → List (List ℚ)
  | _, [] => []
  | e, c :: cs =>
    match doCall F L e c with
    | none => []
    | some (e2, ws) => ws :: runCalls F L e2 cs

/-- Address set a flattened 2-D view can write: `dptr + i*stride + j` for
`i < shape1`, `j < shape0`. -/
def inFootprint (t : Tensor2) (addr : ℕ) : Prop :=
  ∃ i < t.shape1, ∃ j < t.shape0, addr = t.dptr + i * t.stride + j

instance (t : Tensor2) (addr : ℕ) : Decidable (inFootprint t addr) := by
  unfold inFootprint
  infer_instance

/-- The padded stride `((s0+3) >> 2) << 2` equals `(s0+3)/4*4`. -/
theorem pad4_eq (s0 : ℕ) : pad4 s0 = (s0 + 3) / 4 * 4 := by
  unfold pad4
  rw [Nat.shiftRight_eq_div_pow, Nat.shiftLeft_eq]

/-- C1 counterexample: at capacity 16 and requested shape `[20]` the padded
element count (20) is at least the capacity, so the claim demands a fatal
failure on either engine variant; the CPU variant does fail, but the GPU
variant's `GetTemp` carves the view with no capacity check and succeeds. -/
theorem getTemp_gpu_unchecked_cex :
    16 ≤ msizeOf [20] ∧ cpuGetTemp 16 0 [20] = none ∧
      gpuGetTemp 16 0 [20] = some ⟨0, [20], 20⟩ := by
  refine ⟨by decide, by decide, by decide⟩

/-- C1 (amended): `Random<cpu>::GetTemp` asserts that the scratch-buffer
capacity strictly exceeds the padded element count — fatal (`none`) when the
count is ≥ the capacity, succeeding when it is strictly below — and never
reallocates (the returned view reuses the buffer base); `Random<gpu>::GetTemp`
performs no capacity check and always succeeds. -/
theorem getTemp_capacity (cap bufBase : ℕ) (sh : List ℕ) :
    cpuGetTemp cap bufBase sh =
      (if msizeOf sh < cap then some ⟨bufBase, sh, pad4 (sh.headD 0)⟩
       else none) ∧
    gpuGetTemp cap bufBase sh = some ⟨bufBase, sh, pad4 (sh.headD 0)⟩ := by
  constructor
  · simp only [cpuGetTemp, msizeOf, gt_iff_lt]
  · rfl

/-- C2: every view either `GetTemp` variant produces carries a leading-axis
stride that is the smallest multiple of 4 greater than or equal to
`shape[0]` (divisible by 4, at least `shape[0]`, and within 3 of it). -/
theorem getTemp_stride_least (cap bufBase : ℕ) (sh : List ℕ) (v : TView)
    (h : cpuGetTemp cap bufBase sh = some v ∨
         gpuGetTemp cap bufBase sh = some v) :
    4 ∣ v.stride ∧ sh.headD 0 ≤ v.stride ∧ v.stride < sh.headD 0 + 4 := by
  have hv : v.stride = pad4 (sh.headD 0) := by
    rcases h with h | h
    · simp only [cpuGetTemp] at h
      split at h
      · cases h
        rfl
      · exact absurd h (by simp)
    · simp only [gpuGetTemp] at h
      cases h
      rfl
  rw [hv, pad4_eq]
  omega

/-- C2 witness: `gpuGetTemp 16 0 [5]` has stride 8, the least multiple of 4
that is ≥ 5. -/
theorem getTemp_stride_least_witness :
    4 ∣ (8 : ℕ) ∧ (5 : ℕ) ≤ 8 ∧ (8 : ℕ) < 5 + 4 := by
  have h := getTemp_stride_least 16 0 [5] ⟨0, [5], 8⟩ (Or.inr (by decide))
  simpa using h

/-- C4: `SampleNormal2D` coincides with the spec's rejection-sampling
Box-Muller description: draws `u, v` in `(0,1)` via `(rand()+1)/(RAND_MAX+2)`,
maps to `x = 2u-1`, `y = 2v-1`, retries while `s = x²+y² ≥ 1` or `s = 0`,
and on acceptance returns `(x·t, y·t)` with `t = sqrt(-2·ln(s)/s)`. -/
theorem sampleNormal2D_eq_boxMullerSpec (F L : ℚ → ℚ) (rm : ℕ)
    (g : ℕ → ℕ) : ∀ fuel k,
    SampleNormal2D F L rm g fuel k = boxMullerSpec F L rm g fuel k := by
  intro fuel
  induction fuel with
  | zero => intro k; rfl
  | succ n ih =>
    intro k
    simp only [SampleNormal2D, normal2DAccept, boxMullerSpec, randNext2]
    split_ifs with hc
    · exact ih (k + 2)
    · rfl

/-- C8: whenever the rejection loop of `SampleNormal2D` accepts, the
accepted `s` lies strictly in `(0,1)`, so `log s` is defined and negative
and the argument `-2·ln(s)/s` of `sqrt` is non-negative. -/
theorem normal2DAccept_safe (rm : ℕ) (g : ℕ → ℕ) :
    ∀ fuel k x y s k2,
    normal2DAccept rm g fuel k = some (x, y, s, k2) →
    0 < s ∧ s < 1 ∧ Real.log (s : ℝ) < 0 ∧
      0 ≤ -2 * Real.log (s : ℝ) / (s : ℝ) := by
  intro fuel
  induction fuel with
  | zero => intro k x y s k2 h; exact absurd h (by simp [normal2DAccept])
  | succ n ih =>
    intro k x y s k2 h
    simp only [normal2DAccept] at h
    split at h
    · exact ih (k + 2) x y s k2 h
    · rename_i hcond
      push_neg at hcond
      cases h
      set X := 2 * (randNext2 rm g k).1 - 1 with hX
      set Y := 2 * (randNext2 rm g (k + 1)).1 - 1 with hY
      have hnn : 0 ≤ X * X + Y * Y :=
        add_nonneg (mul_self_nonneg X) (mul_self_nonneg Y)
      have hpos : 0 < X * X + Y * Y :=
        lt_of_le_of_ne hnn (Ne.symm hcond.2)
      have hlt : X * X + Y * Y < 1 := hcond.1
      have hposR : (0 : ℝ) < ((X * X + Y * Y : ℚ) : ℝ) := by
        exact_mod_cast hpos
      have hltR : ((X * X + Y * Y : ℚ) : ℝ) < 1 := by exact_mod_cast hlt
      have hlog : Real.log ((X * X + Y * Y : ℚ) : ℝ) < 0 :=
        Real.log_neg hposR hltR
      refine ⟨hpos, hlt, hlog, ?_⟩
      have hnum : 0 ≤ -2 * Real.log ((X * X + Y * Y : ℚ) : ℝ) := by
        nlinarith
      exact div_nonneg hnum (le_of_lt hposR)

/-- C8 witness: with `RAND_MAX = 3` and the constant-zero stream, the first
iteration accepts with `x = y = -3/5`, `s = 18/25`, and indeed
`0 < 18/25 < 1`, `log(18/25) < 0`, `-2·log(18/25)/(18/25) ≥ 0`. -/
theorem normal2DAccept_safe_witness :
    0 < (18 / 25 : ℚ) ∧ (18 / 25 : ℚ) < 1 ∧
      Real.log ((18 / 25 : ℚ) : ℝ) < 0 ∧
      0 ≤ -2 * Real.log ((18 / 25 : ℚ) : ℝ) / ((18 / 25 : ℚ) : ℝ) :=
  normal2DAccept_safe 3 (fun _ => 0) 1 0 (-(3 / 5)) (-(3 / 5)) (18 / 25) 2
    (by norm_num [normal2DAccept, randNext2])

/-- Every value the inner uniform loop writes has the form `r*(b-a)+a` with
`r ∈ [0,1)` and lies in `[a,b)`, given a valid stream and `a < b`. -/
theorem uniformRow_range (rm : ℕ) (g : ℕ → ℕ) (a b : ℚ)
    (hg : ∀ n, g n ≤ rm) (hab : a < b) :
    ∀ n base m k v, v ∈ (uniformRow rm g a b base n m k).2.2 →
      (∃ r, 0 ≤ r ∧ r < 1 ∧ v = r * (b - a) + a) ∧ a ≤ v ∧ v < b := by
  intro n
  induction n with
  | zero => intro base m k v hv; exact absurd hv (by simp [uniformRow])
  | succ n ih =>
    intro base m k v hv
    simp only [uniformRow, List.mem_cons] at hv
    rcases hv with hv | hv
    · subst hv
      set r : ℚ := (randNext rm g k).1 with hr
      have hr0 : 0 ≤ r := by
        simp only [hr, randNext]
        positivity
      have hr1 : r < 1 := by
        simp only [hr, randNext]
        rw [div_lt_one (by positivity)]
        have h1 : (g k : ℚ) ≤ (rm : ℚ) := by exact_mod_cast hg k
        linarith
      refine ⟨⟨r, hr0, hr1, rfl⟩, ?_, ?_⟩
      · nlinarith
      · nlinarith
    · exact ih (base + 1) _ (k + 1) v hv

/-- Lifts `uniformRow_range` over the outer loop. -/
theorem uniformRows_range (rm : ℕ) (g : ℕ → ℕ) (a b : ℚ)
    (dptr stride shape0 : ℕ) (hg : ∀ n, g n ≤ rm) (hab : a < b) :
    ∀ cnt i m k v,
      v ∈ (uniformRows rm g a b dptr stride shape0 i cnt m k).2.2 →
      (∃ r, 0 ≤ r ∧ r < 1 ∧ v = r * (b - a) + a) ∧ a ≤ v ∧ v < b := by
  intro cnt
  induction cnt with
  | zero => intro i m k v hv; exact absurd hv (by simp [uniformRows])
  | succ cnt ih =>
    intro i m k v hv
    simp only [uniformRows, List.mem_append] at hv
    rcases hv with hv | hv
    · exact uniformRow_range rm g a b hg hab shape0 _ m k v hv
    · exact ih (i + 1) _ _ v hv

/-- C3: every value the fallback `Random<cpu>::SampleUniform` writes equals
`RandNext()*(b-a)+a` for a draw `RandNext() = rand()/(RAND_MAX+1) ∈ [0,1)`
and therefore lies in the half-open interval `[a, b)`, for any bounds with
`a < b`. -/
theorem sampleUniform_range (rm : ℕ) (g : ℕ → ℕ) (t : Tensor2) (a b : ℚ)
    (m : Mem) (k : ℕ) (v : ℚ) (hg : ∀ n, g n ≤ rm) (hab : a < b)
    (hv : v ∈ (SampleUniform rm g t a b m k).2.2) :
    (∃ r, 0 ≤ r ∧ r < 1 ∧ v = r * (b - a) + a) ∧ a ≤ v ∧ v < b :=
  uniformRows_range rm g a b t.dptr t.stride t.shape0 hg hab t.shape1 0 m k
    v hv

/-- C3 witness: with `RAND_MAX = 3`, the constant-zero stream and a 1×1
destination, the written value `0` arises as `0*(1-0)+0` and lies in
`[0, 1)`. -/
theorem sampleUniform_range_witness :
    (∃ r, 0 ≤ r ∧ r < 1 ∧ (0 : ℚ) = r * (1 - 0) + 0) ∧
      (0 : ℚ) ≤ 0 ∧ (0 : ℚ) < 1 :=
  sampleUniform_range 3 (fun _ => 0) ⟨0, 1, 1, 4⟩ 0 1 (fun _ => 0) 0 0
    (fun _ => by norm_num) (by norm_num)
    (by norm_num [SampleUniform, uniformRows, uniformRow, randNext])

/-- The inner uniform loop touches only the addresses `[base, base+n)`. -/
theorem uniformRow_frame (rm : ℕ) (g : ℕ → ℕ) (a b : ℚ) (addr : ℕ) :
    ∀ n base m k, addr < base ∨ base + n ≤ addr →
      (uniformRow rm g a b base n m k).1 addr = m addr := by
  intro n
  induction n with
  | zero => intro base m k _; rfl
  | succ n ih =>
    intro base m k h
    simp only [uniformRow]
    rw [ih (base + 1) _ (k + 1) (by omega)]
    simp only [writeAddr]
    rw [if_neg (by omega)]

/-- The outer uniform loop touches only addresses inside the rows it fills. -/
theorem uniformRows_frame (rm : ℕ) (g : ℕ → ℕ) (a b : ℚ)
    (dptr stride shape0 : ℕ) (addr : ℕ) :
    ∀ cnt i m k,
      (∀ i2 j, i ≤ i2 → i2 < i + cnt → j < shape0 →
        addr ≠ dptr + i2 * stride + j) →
      (uniformRows rm g a b dptr stride shape0 i cnt m k).1 addr = m addr := by
  intro cnt
  induction cnt with
  | zero => intro i m k _; rfl
  | succ cnt ih =>
    intro i m k h
    simp only [uniformRows]
    rw [ih (i + 1) _ _ (fun i2 j h1 h2 h3 => h i2 j (by omega) (by omega) h3)]
    apply uniformRow_frame
    rcases lt_or_ge addr (dptr + i * stride) with hlt | hge
    · exact Or.inl hlt
    · rcases lt_or_ge addr (dptr + i * stride + shape0) with hlt2 | hge2
      · exact absurd (by omega :
          addr = dptr + i * stride + (addr - (dptr + i * stride)))
          (h i (addr - (dptr + i * stride)) le_rfl (by omega) (by omega))
      · exact Or.inr hge2

/-- C7: the fallback `Random<cpu>::SampleUniform` mutates only the
destination: every address outside the destination's footprint — in
particular every scratch-buffer address, since a caller-owned destination
does not overlap the engine's buffer — holds its previous contents. -/
theorem sampleUniform_frame (rm : ℕ) (g : ℕ → ℕ) (t : Tensor2) (a b : ℚ)
    (m : Mem) (k : ℕ) (addr : ℕ) (h : ¬ inFootprint t addr) :
    (SampleUniform rm g t a b m k).1 addr = m addr := by
  unfold SampleUniform
  apply uniformRows_frame
  intro i2 j _ h2 h3 heq
  exact h ⟨i2, by omega, j, h3, heq⟩

/-- C7 witness: address 10 is outside the footprint of the 1×2 destination
at base 0 with stride 4, and keeps its contents (value 5) across the call. -/
theorem sampleUniform_frame_witness :
    (SampleUniform 3 (fun _ => 0) ⟨0, 2, 1, 4⟩ 0 1 (fun _ => 5) 0).1 10 =
      (fun _ => (5 : ℚ)) 10 :=
  sampleUniform_frame 3 (fun _ => 0) ⟨0, 2, 1, 4⟩ 0 1 (fun _ => 5) 0 10
    (by decide)

/-- With a zero inner extent, the outer uniform loop is a no-op. -/
theorem uniformRows_zero_inner (rm : ℕ) (g : ℕ → ℕ) (a b : ℚ)
    (dptr stride : ℕ) :
    ∀ cnt i m k, uniformRows rm g a b dptr stride 0 i cnt m k = (m, k, []) := by
  intro cnt
  induction cnt with
  | zero => intro i m k; rfl
  | succ cnt ih =>
    intro i m k
    simp only [uniformRows, uniformRow]
    rw [ih (i + 1) m k]
    rfl

/-- With a zero inner extent, the outer Gaussian loop is a no-op. -/
theorem gaussianRows_zero_inner (F L : ℚ → ℚ) (rm : ℕ) (g : ℕ → ℕ)
    (mu sigma : ℚ) (fuel dptr stride : ℕ) :
    ∀ cnt i m k,
      gaussianRows F L rm g mu sigma fuel dptr stride 0 i cnt m k =
        some (m, k, []) := by
  intro cnt
  induction cnt with
  | zero => intro i m k; rfl
  | succ cnt ih =>
    intro i m k
    simp only [gaussianRows, gaussianRow]
    rw [ih (i + 1) m k]
    rfl

/-- C10: when the flattened destination has a zero inner extent or a zero
outer extent, the fallback `Random<cpu>::SampleUniform` and
`Random<cpu>::SampleGaussian` write nothing (empty write list, memory
untouched) and consume no draws (the cursor is unchanged). -/
theorem sample_empty_noop (F L : ℚ → ℚ) (rm : ℕ) (g : ℕ → ℕ) (t : Tensor2)
    (a b mu sigma : ℚ) (fuel : ℕ) (m : Mem) (k : ℕ)
    (h : t.shape0 = 0 ∨ t.shape1 = 0) :
    SampleUniform rm g t a b m k = (m, k, []) ∧
      SampleGaussian F L rm g t mu sigma fuel m k = some (m, k, []) := by
  unfold SampleUniform SampleGaussian
  rcases h with h | h
  · rw [h]
    exact ⟨uniformRows_zero_inner rm g a b t.dptr t.stride t.shape1 0 m k,
      gaussianRows_zero_inner F L rm g mu sigma fuel t.dptr t.stride
        t.shape1 0 m k⟩
  · rw [h]
    exact ⟨rfl, rfl⟩

/-- C10 witness: a destination flattened to 0×5 is filled by neither
sampler: memory, cursor and write list are untouched. -/
theorem sample_empty_noop_witness :
    SampleUniform 3 (fun _ => 0) ⟨0, 0, 5, 4⟩ 0 1 (fun _ => 7) 11 =
        (fun _ => (7 : ℚ), 11, []) ∧
      SampleGaussian id id 3 (fun _ => 0) ⟨0, 0, 5, 4⟩ 0 1 9 (fun _ => 7)
          11 = some (fun _ => (7 : ℚ), 11, []) :=
  sample_empty_noop id id 3 (fun _ => 0) ⟨0, 0, 5, 4⟩ 0 1 0 1 9 (fun _ => 7)
    11 (Or.inl rfl)

/-- One row of the fallback Gaussian fill, started at an even inner index,
coincides with the spec's pair-first description. -/
theorem gaussianRow_eq_spec (F L : ℚ → ℚ) (rm : ℕ) (g : ℕ → ℕ)
    (mu sigma : ℚ) (fuel : ℕ) :
    ∀ (n base j : ℕ) (g1 g2 : ℚ) (m : Mem) (k : ℕ), j % 2 = 0 →
      gaussianRow F L rm g mu sigma fuel base n j g1 g2 m k =
        gaussianRowSpec F L rm g mu sigma fuel base n m k
  | 0, base, j, g1, g2, m, k, hj => rfl
  | 1, base, j, g1, g2, m, k, hj => by
    simp only [gaussianRow, gaussianRowSpec, if_pos hj]
  | n + 2, base, j, g1, g2, m, k, hj => by
    have hj1 : ¬ (j + 1) % 2 = 0 := by omega
    simp only [gaussianRow, gaussianRowSpec, if_pos hj, if_neg hj1]
    cases hS : SampleNormal2D F L rm g fuel k with
    | none => rfl
    | some p =>
      obtain ⟨x, y, k2⟩ := p
      dsimp only
      rw [gaussianRow_eq_spec F L rm g mu sigma fuel n (base + 1 + 1)
        (j + 1 + 1) x y _ k2 (by omega)]
      rw [show base + 1 + 1 = base + 2 from rfl]
      cases gaussianRowSpec F L rm g mu sigma fuel (base + 2) n
          (writeAddr (writeAddr m base (mu + x * sigma)) (base + 1)
            (mu + y * sigma)) k2 with
      | none => rfl
      | some q =>
        obtain ⟨m2, k3, ws⟩ := q
        rfl

/-- Lifts `gaussianRow_eq_spec` over the outer loop. -/
theorem gaussianRows_eq_spec (F L : ℚ → ℚ) (rm : ℕ) (g : ℕ → ℕ)
    (mu sigma : ℚ) (fuel dptr stride shape0 : ℕ) :
    ∀ (cnt i : ℕ) (m : Mem) (k : ℕ),
      gaussianRows F L rm g mu sigma fuel dptr stride shape0 i cnt m k =
        gaussianRowsSpec F L rm g mu sigma fuel dptr stride shape0 i cnt
          m k := by
  intro cnt
  induction cnt with
  | zero => intro i m k; rfl
  | succ cnt ih =>
    intro i m k
    simp only [gaussianRows, gaussianRowsSpec]
    rw [gaussianRow_eq_spec F L rm g mu sigma fuel shape0 (dptr + i * stride)
      0 0 0 m k rfl]
    cases gaussianRowSpec F L rm g mu sigma fuel (dptr + i * stride) shape0
        m k with
    | none => rfl
    | some p =>
      obtain ⟨m2, k2, ws⟩ := p
      dsimp only
      rw [ih (i + 1) m2 k2]

/-- C5: the fallback `Random<cpu>::SampleGaussian` coincides with the spec's
pair-first description: each row consumes Box-Muller pairs, writes
`mu + g*sigma` for each scalar, serves the even inner index from the first
element of a freshly generated pair and the following odd index from the
second element of the same pair, and when the inner extent is odd discards
the final generated pair's second value. -/
theorem sampleGaussian_eq_spec (F L : ℚ → ℚ) (rm : ℕ) (g : ℕ → ℕ)
    (t : Tensor2) (mu sigma : ℚ) (fuel : ℕ) (m : Mem) (k : ℕ) :
    SampleGaussian F L rm g t mu sigma fuel m k =
      SampleGaussianSpec F L rm g t mu sigma fuel m k :=
  gaussianRows_eq_spec F L rm g mu sigma fuel t.dptr t.stride t.shape0
    t.shape1 0 m k

/-- A successful `uniform(shape)` call returns a view based at the scratch
buffer's base address and keeps the buffer where it was. -/
theorem uniformCall_view (e : CpuEngine) (sh : List ℕ)
    (r : CpuEngine × TView × List ℚ) (h : uniformCall e sh = some r) :
    r.2.1.dptr = e.bufBase ∧ r.1.bufBase = e.bufBase ∧ r.1.cap = e.cap ∧
      r.1.rm = e.rm ∧ r.1.g = e.g := by
  simp only [uniformCall, cpuGetTemp] at h
  split at h
  · exact absurd h (by simp)
  · rename_i v heq
    split at heq
    · cases heq
      cases h
      exact ⟨rfl, rfl, rfl, rfl, rfl⟩
    · exact absurd heq (by simp)

/-- A successful `gaussian(shape)` call returns a view based at the scratch
buffer's base address and keeps the buffer where it was. -/
theorem gaussianCall_view (F L : ℚ → ℚ) (e : CpuEngine) (sh : List ℕ)
    (fuel : ℕ) (r : CpuEngine × TView × List ℚ)
    (h : gaussianCall F L e sh fuel = some r) :
    r.2.1.dptr = e.bufBase ∧ r.1.bufBase = e.bufBase ∧ r.1.cap = e.cap ∧
      r.1.rm = e.rm ∧ r.1.g = e.g := by
  simp only [gaussianCall, cpuGetTemp] at h
  split at h
  · exact absurd h (by simp)
  · rename_i v heq
    split at heq
    · cases heq
      split at h
      · exact absurd h (by simp)
      · cases h
        exact ⟨rfl, rfl, rfl, rfl, rfl⟩
    · exact absurd heq (by simp)

/-- C6: every view returned by `uniform(shape)` or `gaussian(shape)` starts
at the scratch buffer's base address; consequently after a second call on
the same engine the first call's view aliases the very same storage as the
second call's view, so reading through it shows the second call's data. -/
theorem tempViews_alias (F L : ℚ → ℚ) (e : CpuEngine) (sh1 sh2 : List ℕ)
    (fuel : ℕ) (off : ℕ)
    (h1 : (uniformCall e sh1).isSome = true)
    (h2 : (uniformCall ((uniformCall e sh1).get h1).1 sh2).isSome = true)
    (h3 : (gaussianCall F L e sh1 fuel).isSome = true) :
    ((uniformCall e sh1).get h1).2.1.dptr = e.bufBase ∧
    ((gaussianCall F L e sh1 fuel).get h3).2.1.dptr = e.bufBase ∧
    ((uniformCall ((uniformCall e sh1).get h1).1 sh2).get h2).1.mem
        (((uniformCall e sh1).get h1).2.1.dptr + off) =
      ((uniformCall ((uniformCall e sh1).get h1).1 sh2).get h2).1.mem
        (((uniformCall ((uniformCall e sh1).get h1).1 sh2).get h2).2.1.dptr
          + off) := by
  have e1 := uniformCall_view e sh1 _ (Option.some_get h1).symm
  have e2 := uniformCall_view ((uniformCall e sh1).get h1).1 sh2 _
    (Option.some_get h2).symm
  have e3 := gaussianCall_view F L e sh1 fuel _ (Option.some_get h3).symm
  refine ⟨e1.1, e3.1, ?_⟩
  rw [e1.1, e2.1, e1.2.1]

/-- A small concrete engine: `RAND_MAX = 3`, constant-zero stream, capacity
16, buffer at address 100, zeroed memory. -/
def engW : CpuEngine := ⟨3, fun _ => 0, 0, 16, 100, fun _ => 0⟩

/-- The first `uniform([2])` call on `engW` succeeds. -/
theorem engW_u1 : (uniformCall engW [2]).isSome = true := by rfl

/-- The follow-up `uniform([3])` call succeeds. -/
theorem engW_u2 :
    (uniformCall ((uniformCall engW [2]).get engW_u1).1 [3]).isSome =
      true := by rfl

/-- The `gaussian([2])` call on `engW` succeeds with fuel 1. -/
theorem engW_g : (gaussianCall id id engW [2] 1).isSome = true := by
  norm_num [gaussianCall, cpuGetTemp, pad4, flatTo2D, SampleGaussian,
    gaussianRows, gaussianRow, SampleNormal2D, normal2DAccept, randNext2,
    engW, writeAddr, Nat.shiftRight_eq_div_pow, Nat.shiftLeft_eq]

/-- C6 witness: on the concrete engine `engW`, the views of `uniform([2])`
and `gaussian([2])` start at the buffer base 100, and after the second
`uniform([3])` call the two views read the same storage. -/
theorem tempViews_alias_witness :
    ((uniformCall engW [2]).get engW_u1).2.1.dptr = engW.bufBase ∧
    ((gaussianCall id id engW [2] 1).get engW_g).2.1.dptr = engW.bufBase ∧
    ((uniformCall ((uniformCall engW [2]).get engW_u1).1 [3]).get
        engW_u2).1.mem (((uniformCall engW [2]).get engW_u1).2.1.dptr + 0) =
      ((uniformCall ((uniformCall engW [2]).get engW_u1).1 [3]).get
          engW_u2).1.mem
        (((uniformCall ((uniformCall engW [2]).get engW_u1).1 [3]).get
            engW_u2).2.1.dptr + 0) :=
  tempViews_alias id id engW [2] [3] 1 0 engW_u1 engW_u2 engW_g

/-- Cursor and values produced by the inner uniform loop; a function of the
stream and cursor only, independent of memory and write addresses. -/
def uniformRowOut (rm : ℕ) (g : ℕ → ℕ) (a b : ℚ) : ℕ → ℕ → ℕ × List ℚ
  | 0, k => (k, [])
  | n + 1, k =>
    let v := (randNext rm g k).1 * (b - a) + a
    let r := uniformRowOut rm g a b n (k + 1)
    (r.1, v :: r.2)

/-- Cursor and values produced by the whole uniform fill. -/
def uniformRowsOut (rm : ℕ) (g : ℕ → ℕ) (a b : ℚ) (shape0 : ℕ) :
    ℕ → ℕ → ℕ × List ℚ
  | 0, k => (k, [])
  | cnt + 1, k =>
    let r := uniformRowOut rm g a b shape0 k
    let r2 := uniformRowsOut rm g a b shape0 cnt r.1
    (r2.1, r.2 ++ r2.2)

/-- Cursor and values produced by the inner Gaussian loop. -/
def gaussianRowOut (F L : ℚ → ℚ) (rm : ℕ) (g : ℕ → ℕ) (mu sigma : ℚ)
    (fuel : ℕ) : ℕ → ℕ → ℚ → ℚ → ℕ → Option (ℕ × List ℚ)
  | 0, _, _, _, k => some (k, [])
  | cnt + 1, j, g1, g2, k =>
    if j % 2 = 0 then
      match SampleNormal2D F L rm g fuel k with
      | none => none
      | some (x, y, k2) =>
        let v := mu + x * sigma
        match gaussianRowOut F L rm g mu sigma fuel cnt (j + 1) x y k2 with
        | none => none
        | some (k3, ws) => some (k3, v :: ws)
    else
      let v := mu + g2 * sigma
      match gaussianRowOut F L rm g mu sigma fuel cnt (j + 1) g1 g2 k with
      | none => none
      | some (k3, ws) => some (k3, v :: ws)

/-- Cursor and values produced by the whole Gaussian fill. -/
def gaussianRowsOut (F L : ℚ → ℚ) (rm : ℕ) (g : ℕ → ℕ) (mu sigma : ℚ)
    (fuel shape0 : ℕ) : ℕ → ℕ → Option (ℕ × List ℚ)
  | 0, k => some (k, [])
  | cnt + 1, k =>
    match gaussianRowOut F L rm g mu sigma fuel shape0 0 0 0 k with
    | none => none
    | some (k2, ws) =>
      match gaussianRowsOut F L rm g mu sigma fuel shape0 cnt k2 with
      | none => none
      | some (k3, ws2) => some (k3, ws ++ ws2)

/-- Cursor and values of one call, as a function of the stream, the cursor
and the capacity only. -/
def doCallOut (F L : ℚ → ℚ) (rm : ℕ) (g : ℕ → ℕ) (cap : ℕ) :
    Call → ℕ → Option (ℕ × List ℚ)
  | Call.uniformTemp sh, k =>
    if cap > pad4 (sh.headD 0) * (sh.tail.foldl (· * ·) 1) then
      some (uniformRowsOut rm g 0 1 (sh.headD 0)
        (sh.tail.foldl (· * ·) 1) k)
    else none
  | Call.gaussianTemp sh fuel, k =>
    if cap > pad4 (sh.headD 0) * (sh.tail.foldl (· * ·) 1) then
      gaussianRowsOut F L rm g 0 1 fuel (sh.headD 0)
        (sh.tail.foldl (· * ·) 1) k
    else none
  | Call.sampleU dst a b, k =>
    some (uniformRowsOut rm g a b dst.shape0 dst.shape1 k)
  | Call.sampleG dst mu sigma fuel, k =>
    gaussianRowsOut F L rm g mu sigma fuel dst.shape0 dst.shape1 k

/-- Outputs of a whole run, as a function of stream, cursor, capacity. -/
def runCallsOut (F L : ℚ → ℚ) (rm : ℕ) (g : ℕ → ℕ) (cap : ℕ) :
    ℕ → List Call → List (List ℚ)
  | _, [] => []
  | k, c :: cs =>
    match doCallOut F L rm g cap c k with
    | none => []
    | some (k2, ws) => ws :: runCallsOut F L rm g cap k2 cs

/-- The cursor/value outputs of the inner uniform loop do not depend on the
memory or the write addresses. -/
theorem uniformRow_out (rm : ℕ) (g : ℕ → ℕ) (a b : ℚ) :
    ∀ n base m k,
      (uniformRow rm g a b base n m k).2 = uniformRowOut rm g a b n k := by
  intro n
  induction n with
  | zero => intro base m k; rfl
  | succ n ih =>
    intro base m k
    simp only [uniformRow, uniformRowOut]
    rw [← ih (base + 1)
      (writeAddr m base ((randNext rm g k).1 * (b - a) + a)) (k + 1)]

/-- The cursor/value outputs of the whole uniform fill do not depend on the
memory or the addressing. -/
theorem uniformRows_out (rm : ℕ) (g : ℕ → ℕ) (a b : ℚ)
    (dptr stride shape0 : ℕ) :
    ∀ cnt i m k,
      (uniformRows rm g a b dptr stride shape0 i cnt m k).2 =
        uniformRowsOut rm g a b shape0 cnt k := by
  intro cnt
  induction cnt with
  | zero => intro i m k; rfl
  | succ cnt ih =>
    intro i m k
    simp only [uniformRows, uniformRowsOut]
    rw [uniformRow_out rm g a b shape0 (dptr + i * stride) m k,
      ih (i + 1) (uniformRow rm g a b (dptr + i * stride) shape0 m k).1
        (uniformRowOut rm g a b shape0 k).1]

/-- The cursor/value outputs of the inner Gaussian loop do not depend on the
memory or the write addresses. -/
theorem gaussianRow_out (F L : ℚ → ℚ) (rm : ℕ) (g : ℕ → ℕ) (mu sigma : ℚ)
    (fuel : ℕ) :
    ∀ cnt base j g1 g2 m k,
      Option.map (fun r => r.2)
          (gaussianRow F L rm g mu sigma fuel base cnt j g1 g2 m k) =
        gaussianRowOut F L rm g mu sigma fuel cnt j g1 g2 k := by
  intro cnt
  induction cnt with
  | zero => intro base j g1 g2 m k; rfl
  | succ cnt ih =>
    intro base j g1 g2 m k
    simp only [gaussianRow, gaussianRowOut]
    split_ifs with hj
    · cases hS : SampleNormal2D F L rm g fuel k with
      | none => rfl
      | some p =>
        obtain ⟨x, y, k2⟩ := p
        dsimp only
        rw [← ih (base + 1) (j + 1) x y
          (writeAddr m base (mu + x * sigma)) k2]
        cases gaussianRow F L rm g mu sigma fuel (base + 1) cnt (j + 1) x y
            (writeAddr m base (mu + x * sigma)) k2 with
        | none => rfl
        | some q => obtain ⟨m2, k3, ws⟩ := q; rfl
    · rw [← ih (base + 1) (j + 1) g1 g2
        (writeAddr m base (mu + g2 * sigma)) k]
      cases gaussianRow F L rm g mu sigma fuel (base + 1) cnt (j + 1) g1 g2
          (writeAddr m base (mu + g2 * sigma)) k with
      | none => rfl
      | some q => obtain ⟨m2, k3, ws⟩ := q; rfl

/-- The cursor/value outputs of the whole Gaussian fill do not depend on the
memory or the addressing. -/
theorem gaussianRows_out (F L : ℚ → ℚ) (rm : ℕ) (g : ℕ → ℕ) (mu sigma : ℚ)
    (fuel dptr stride shape0 : ℕ) :
    ∀ cnt i m k,
      Option.map (fun r => r.2)
          (gaussianRows F L rm g mu sigma fuel dptr stride shape0 i cnt
            m k) =
        gaussianRowsOut F L rm g mu sigma fuel shape0 cnt k := by
  intro cnt
  induction cnt with
  | zero => intro i m k; rfl
  | succ cnt ih =>
    intro i m k
    simp only [gaussianRows, gaussianRowsOut]
    have hrow := gaussianRow_out F L rm g mu sigma fuel shape0
      (dptr + i * stride) 0 0 0 m k
    cases hr : gaussianRow F L rm g mu sigma fuel (dptr + i * stride)
        shape0 0 0 0 m k with
    | none =>
      rw [hr] at hrow
      simp only [Option.map_none'] at hrow
      rw [← hrow]
      rfl
    | some p =>
      obtain ⟨m2, k2, ws⟩ := p
      rw [hr] at hrow
      simp only [Option.map_some'] at hrow
      rw [← hrow]
      dsimp only
      have hrec := ih (i + 1) m2 k2
      cases hr2 : gaussianRows F L rm g mu sigma fuel dptr stride shape0
          (i + 1) cnt m2 k2 with
      | none =>
        rw [hr2] at hrec
        simp only [Option.map_none'] at hrec
        rw [← hrec]
        rfl
      | some q =>
        obtain ⟨m3, k3, ws2⟩ := q
        rw [hr2] at hrec
        simp only [Option.map_some'] at hrec
        rw [← hrec]
        rfl

/-- The cursor and output values of one call depend only on the stream, the
cursor and the capacity — not on the memory contents or the buffer
address. -/
theorem doCall_out (F L : ℚ → ℚ) (e : CpuEngine) (c : Call) :
    Option.map (fun r => (r.1.pos, r.2)) (doCall F L e c) =
      doCallOut F L e.rm e.g e.cap c e.pos := by
  cases c with
  | uniformTemp sh =>
    simp only [doCall, uniformCall, cpuGetTemp, doCallOut, SampleUniform,
      flatTo2D]
    split_ifs with hc
    · dsimp only
      rw [uniformRows_out e.rm e.g 0 1 e.bufBase (pad4 (sh.headD 0))
        (sh.headD 0) (sh.tail.foldl (· * ·) 1) 0 e.mem e.pos]
      rfl
    · rfl
  | gaussianTemp sh fuel =>
    simp only [doCall, gaussianCall, cpuGetTemp, doCallOut, SampleGaussian,
      flatTo2D]
    split_ifs with hc
    · dsimp only
      have h := gaussianRows_out F L e.rm e.g 0 1 fuel e.bufBase
        (pad4 (sh.headD 0)) (sh.headD 0) (sh.tail.foldl (· * ·) 1) 0
        e.mem e.pos
      cases hS : gaussianRows F L e.rm e.g 0 1 fuel e.bufBase
          (pad4 (sh.headD 0)) (sh.headD 0) 0 (sh.tail.foldl (· * ·) 1)
          e.mem e.pos with
      | none =>
        rw [hS] at h
        simp only [Option.map_none'] at h
        rw [← h]
        rfl
      | some p =>
        obtain ⟨m2, k2, ws⟩ := p
        rw [hS] at h
        simp only [Option.map_some'] at h
        rw [← h]
        rfl
    · rfl
  | sampleU dst a b =>
    simp only [doCall, doCallOut, SampleUniform]
    rw [uniformRows_out e.rm e.g a b dst.dptr dst.stride dst.shape0
      dst.shape1 0 e.mem e.pos]
    rfl
  | sampleG dst mu sigma fuel =>
    simp only [doCall, doCallOut, SampleGaussian]
    have h := gaussianRows_out F L e.rm e.g mu sigma fuel dst.dptr
      dst.stride dst.shape0 dst.shape1 0 e.mem e.pos
    cases hS : gaussianRows F L e.rm e.g mu sigma fuel dst.dptr dst.stride
        dst.shape0 0 dst.shape1 e.mem e.pos with
    | none =>
      rw [hS] at h
      simp only [Option.map_none'] at h
      rw [← h]
      rfl
    | some p =>
      obtain ⟨m2, k2, ws⟩ := p
      rw [hS] at h
      simp only [Option.map_some'] at h
      rw [← h]
      rfl

/-- Every call leaves the stream, `RAND_MAX` and the capacity of the engine
unchanged. -/
theorem doCall_preserve (F L : ℚ → ℚ) (e : CpuEngine) (c : Call)
    (r : CpuEngine × List ℚ) (h : doCall F L e c = some r) :
    r.1.rm = e.rm ∧ r.1.g = e.g ∧ r.1.cap = e.cap := by
  cases c with
  | uniformTemp sh =>
    simp only [doCall] at h
    split at h
    · exact absurd h (by simp)
    · rename_i e2 v ws heq
      cases h
      have hv := uniformCall_view e sh (e2, v, ws) heq
      exact ⟨hv.2.2.2.1, hv.2.2.2.2, hv.2.2.1⟩
  | gaussianTemp sh fuel =>
    simp only [doCall] at h
    split at h
    · exact absurd h (by simp)
    · rename_i e2 v ws heq
      cases h
      have hv := gaussianCall_view F L e sh fuel (e2, v, ws) heq
      exact ⟨hv.2.2.2.1, hv.2.2.2.2, hv.2.2.1⟩
  | sampleU dst a b =>
    simp only [doCall] at h
    cases h
    exact ⟨rfl, rfl, rfl⟩
  | sampleG dst mu sigma fuel =>
    simp only [doCall] at h
    split at h
    · exact absurd h (by simp)
    · cases h
      exact ⟨rfl, rfl, rfl⟩

/-- A whole run's outputs are a function of the stream, initial cursor and
capacity only. -/
theorem runCalls_out (F L : ℚ → ℚ) :
    ∀ (cs : List Call) (e : CpuEngine),
      runCalls F L e cs = runCallsOut F L e.rm e.g e.cap e.pos cs := by
  intro cs
  induction cs with
  | nil => intro e; rfl
  | cons c cs ih =>
    intro e
    simp only [runCalls, runCallsOut]
    have hmap := doCall_out F L e c
    cases hd : doCall F L e c with
    | none =>
      rw [hd] at hmap
      simp only [Option.map_none'] at hmap
      rw [← hmap]
    | some r =>
      rw [hd] at hmap
      simp only [Option.map_some'] at hmap
      rw [← hmap]
      dsimp only
      obtain ⟨hrm, hg, hcap⟩ := doCall_preserve F L e c r hd
      rw [ih r.1, hrm, hg, hcap]

/-- C9: two CPU engines constructed with the same seed (hence the same
seeded stream), with the same buffer capacity but arbitrary buffer
placements and initial memories, produce identical output value sequences
on any identical sequence of sampling calls. -/
theorem sameSeed_deterministic (F L : ℚ → ℚ) (platform : ℤ → ℕ → ℕ)
    (rm : ℕ) (seed : ℤ) (cap b1 b2 : ℕ) (m1 m2 : Mem) (cs : List Call) :
    runCalls F L (mkCpuEngine platform rm seed cap b1 m1) cs =
      runCalls F L (mkCpuEngine platform rm seed cap b2 m2) cs := by
  rw [runCalls_out, runCalls_out]
  rfl

end Mshadow
